import Mathlib

/-!
Verification of the conversation-tree linearizer and metadata extractor of
`convert.py` (ChatGPT export reader).

The Python source works on JSON-shaped dictionaries.  We embed the
well-typed shape described by the data model (a mapping from node ids to
node records, each node optionally carrying a message) as Lean structures
with `Option` fields standing for Python's absent / `None` fields, and the
mapping itself as an insertion-ordered association list (Python dicts
iterate in insertion order; keys of a real dict are distinct, and all
lookups below use first-match semantics, which coincides with dict lookup
on distinct keys).

Strings are Lean `String`s; `s.replace('\n', ' ')` is the character map it
is in Python, `str.strip()` is modelled by stripping the ASCII whitespace
characters Python strips, and `s[:150]` is `take` on the character list.

The recursive `traverse` closure of `build_message_thread` is embedded
with an explicit fuel parameter (`traverseF`); `build_message_thread`
invokes it with fuel strictly larger than the number of node ids that can
ever be visited, and the development proves that this fuel is always
sufficient, which is exactly the termination argument the visited set
provides in the source.
-/

namespace ChatExport

/-- `author` dictionary of a message: carries an optional `role` string. -/
structure Author where
  role : Option String
deriving DecidableEq, Repr

/-- One element of a content's `parts` list: a raw string, a dictionary
(with optional `content_type` and optional `text` fields), or any other
JSON value (number, null, ...), which contributes nothing. -/
inductive ContentPart where
  | str (s : String)
  | obj (content_type : Option String) (text : Option String)
  | other
deriving DecidableEq, Repr

/-- `content` dictionary of a message: `content_type` discriminator,
`parts` (for text / multimodal_text) and `text` (for code). -/
structure Content where
  content_type : Option String
  parts : Option (List ContentPart)
  text : Option String
deriving DecidableEq, Repr

/-- A message dictionary: optional `author`, `content`, `create_time`. -/
structure Message where
  author : Option Author
  content : Option Content
  create_time : Option Int
deriving DecidableEq, Repr

/-- A node of the conversation mapping: optional `parent` id, optional
`children` id list, optional `message`. -/
structure Node where
  parent : Option String
  children : Option (List String)
  message : Option Message
deriving DecidableEq, Repr

/-- A conversation object: optional `title`, timestamps, and the node
mapping (insertion-ordered association list, distinct keys). -/
structure Conversation where
  title : Option String
  create_time : Option Int
  update_time : Option Int
  mapping : List (String × Node)
deriving DecidableEq, Repr

/-- The record appended to `messages` by `build_message_thread.traverse`. -/
structure DMsg where
  role : String
  text : String
  time : Option Int
deriving DecidableEq, Repr

/-! ## Text extractor (`extract_message_text`, convert.py lines 44-68) -/

/-- Contribution of one element of `parts` inside the
`text`/`multimodal_text` branch of `extract_message_text`: strings pass
through, dicts whose `content_type` is `image_asset_pointer` contribute
the placeholder, dicts with a `text` field contribute that field, and
everything else contributes nothing. -/
def partText : ContentPart → Option String
  | .str s => some s
  | .obj part_ct t =>
    if part_ct == some "image_asset_pointer" then some "[Image]"
    else t
  | .other => none

/-- `extract_message_text(message)`, convert.py lines 44-68.  `none` is
Python's `None` ("no text"); note that a nonempty `parts` list all of
whose contributions are empty strings yields `some ""`, not `none`,
exactly as `'\n'.join` does in the source. -/
def extract_message_text (message : Option Message) : Option String :=
  match message with
  | none => none
  | some m =>
    match m.content with
    | none => none
    | some content =>
      let content_type := content.content_type.getD ""
      if content_type = "text" ∨ content_type = "multimodal_text" then
        let text_parts := (content.parts.getD []).filterMap partText
        if text_parts.isEmpty then none
        else some (String.intercalate "\n" text_parts)
      else if content_type = "code" then
        some ("```\n" ++ content.text.getD "" ++ "\n```")
      else none

/-! ## Tree linearizer (`build_message_thread`, convert.py lines 71-125) -/

/-- First-match association-list lookup: `nodes.get(node_id)` on the dict
built from the mapping (identical to it, since dict keys are distinct). -/
def lookupNode (nodes : List (String × Node)) (node_id : String) : Option Node :=
  (nodes.find? (fun kv => kv.1 == node_id)).map Prod.snd

/-- The root search loop of `build_message_thread` (lines 86-90): the id
of the first node in mapping iteration order whose `parent` is `None`. -/
def rootId (mapping : List (String × Node)) : Option String :=
  (mapping.find? (fun kv => kv.2.parent.isNone)).map Prod.fst

/-- The parent-to-children index built (and never read) at lines 76-83 of
the source; `if parent:` keeps only truthy (non-`None`, non-empty) parent
ids.  Included for fidelity; the traversal uses each node's own
`children` list only. -/
def children_map (mapping : List (String × Node)) (parent : String) : List String :=
  ((mapping.filter (fun kv => kv.2.parent == some parent)).map Prod.fst).filter
    (fun _ => !(parent == ""))

/-- The role string read by `traverse` (line 109):
`message.get('author', {}).get('role', 'unknown')`. -/
def roleForTraverse (m : Message) : String :=
  match m.author with
  | none => "unknown"
  | some a => a.role.getD "unknown"

/-- Lines 107-118 of `traverse`: the (zero- or one-element) list of
records the node's message appends to `messages`, given the already
extracted text.  `if text and author in (...)` requires the text to be
truthy (present and nonempty). -/
def emitCore (m : Message) (t? : Option String) : List DMsg :=
  match t? with
  | none => []
  | some text =>
    if text ≠ "" ∧ (roleForTraverse m = "user" ∨ roleForTraverse m = "assistant" ∨
        roleForTraverse m = "tool") then
      [⟨roleForTraverse m, text, m.create_time⟩]
    else []

/-- The full per-node emission of `traverse` (lines 107-118), including
the `if message:` guard. -/
def emitMsgs (node : Node) : List DMsg :=
  match node.message with
  | none => []
  | some m => emitCore m (extract_message_text (some m))

/-- The `for child_id in children: traverse(child_id)` loop (lines
120-122), sequencing an arbitrary per-node traversal function over the
children while threading the visited list and appending the emitted
records.  Polymorphic in the record type so the instrumented traversal
below can reuse it. -/
def traverseChildren {α : Type}
    (trav : List String → String → Option (List String × List α)) :
    List String → List String → Option (List String × List α)
  | visited, [] => some (visited, [])
  | visited, c :: cs =>
    match trav visited c with
    | none => none
    | some (v1, m1) =>
      match traverseChildren trav v1 cs with
      | none => none
      | some (v2, m2) => some (v2, m1 ++ m2)

/-- The recursive `traverse` closure (lines 98-122), with the mutable
`visited` set and `messages` accumulator made explicit and an explicit
fuel bound on recursion depth (`none` = fuel exhausted; the development
proves fuel `buildFuel` below always suffices). -/
def traverseF (nodes : List (String × Node)) :
    Nat → List String → String → Option (List String × List DMsg)
  | 0, _, _ => none
  | fuel+1, visited, node_id =>
    if node_id ∈ visited then some (visited, [])
    else
      match lookupNode nodes node_id with
      | none => some (node_id :: visited, [])
      | some node =>
        match traverseChildren (fun v c => traverseF nodes fuel v c)
            (node_id :: visited) (node.children.getD []) with
        | none => none
        | some (v, ms) => some (v, emitMsgs node ++ ms)

/-- Every node id the traversal can ever visit: the mapping's keys plus
every id in any node's `children` list. -/
def allIds (mapping : List (String × Node)) : List String :=
  mapping.map Prod.fst ++ (mapping.map (fun kv => kv.2.children.getD [])).flatten

/-- Fuel used by `build_message_thread`: strictly more than the number of
visitable ids, hence (proved below) never exhausted. -/
def buildFuel (mapping : List (String × Node)) : Nat :=
  (allIds mapping).length + 1

/-- `build_message_thread(mapping)`, convert.py lines 71-125.  Note the
source's `if not root:` is a Python truthiness test: it bails out both
when no parentless node exists (`root` still `None`) and when the first
parentless node's id is the empty string (a falsy id). -/
def build_message_thread (mapping : List (String × Node)) : List DMsg :=
  if mapping.isEmpty then []
  else
    match rootId mapping with
    | none => []
    | some root =>
      if root = "" then []
      else
        match traverseF mapping (buildFuel mapping) [] root with
        | none => []
        | some (_, msgs) => msgs

/-! ## Metadata extractor (convert.py lines 170-194) -/

/-- The ASCII whitespace characters stripped by Python's `str.strip()`
(the inputs in play are ASCII). -/
def pyIsSpace (c : Char) : Bool :=
  c == ' ' || c == '\t' || c == '\n' || c == '\r' || c == '\x0b' || c == '\x0c'

/-- `str.strip()` on the character list: drop leading and trailing
whitespace. -/
def pyStripL (l : List Char) : List Char :=
  ((l.dropWhile pyIsSpace).reverse.dropWhile pyIsSpace).reverse

/-- `text.replace('\n', ' ').strip()[:150]` (convert.py line 179). -/
def previewProcess (t : String) : String :=
  String.mk ((pyStripL (t.data.map (fun c => if c == '\n' then ' ' else c))).take 150)

/-- `get_first_user_message(mapping)`, convert.py lines 170-180: scan the
mapping in iteration order; on the first node whose message's author role
is `user`, extract its text; if truthy, return it processed, otherwise
keep scanning. -/
def get_first_user_message : List (String × Node) → String
  | [] => ""
  | (_, node) :: rest =>
    match node.message with
    | none => get_first_user_message rest
    | some m =>
      if m.author.bind Author.role == some "user" then
        match extract_message_text (some m) with
        | none => get_first_user_message rest
        | some t =>
          if t = "" then get_first_user_message rest else previewProcess t
      else get_first_user_message rest

/-- The role string read by `count_messages` (line 191):
`message.get('author', {}).get('role', '')`. -/
def roleForCount (m : Message) : String :=
  match m.author with
  | none => ""
  | some a => a.role.getD ""

/-- `count_messages(mapping)`, convert.py lines 183-194. -/
def count_messages (mapping : List (String × Node)) : Nat :=
  mapping.foldl
    (fun count kv =>
      match kv.2.message with
      | none => count
      | some m =>
        if roleForCount m = "user" ∨ roleForCount m = "assistant" then count + 1
        else count)
    0

/-! ## Conversation assembly (convert.py lines 128-135) -/

/-- The title selection of `conversation_to_markdown` (line 130):
`conv.get('title', 'Untitled Conversation')` — the default applies only
when the field is absent; an empty-string title is kept as is. -/
def conversation_title (conv : Conversation) : String :=
  conv.title.getD "Untitled Conversation"

/-! ## Instrumented traversal

Identical to `traverseF` except that every emitted record is tagged with
the id of the node that emitted it.  Erasing the tags recovers
`traverseF` exactly (proved below); the tags let us state that each node
contributes at most one record. -/

/-- `emitMsgs` with the emitting node's id attached to each record. -/
def emitMsgsI (node_id : String) (node : Node) : List (String × DMsg) :=
  (emitMsgs node).map (fun d => (node_id, d))

/-- `traverseF` with emitted records tagged by their emitting node id. -/
def traverseFI (nodes : List (String × Node)) :
    Nat → List String → String → Option (List String × List (String × DMsg))
  | 0, _, _ => none
  | fuel+1, visited, node_id =>
    if node_id ∈ visited then some (visited, [])
    else
      match lookupNode nodes node_id with
      | none => some (node_id :: visited, [])
      | some node =>
        match traverseChildren (fun v c => traverseFI nodes fuel v c)
            (node_id :: visited) (node.children.getD []) with
        | none => none
        | some (v, ms) => some (v, emitMsgsI node_id node ++ ms)

/-- `build_message_thread` with tagged records. -/
def build_message_threadI (mapping : List (String × Node)) : List (String × DMsg) :=
  if mapping.isEmpty then []
  else
    match rootId mapping with
    | none => []
    | some root =>
      if root = "" then []
      else
        match traverseFI mapping (buildFuel mapping) [] root with
        | none => []
        | some (_, msgs) => msgs

/-! ## Exception-instrumented variants

The only raw (exception-capable) dictionary subscripts in the core are
`message['content']` (guarded by `'content' not in message`) and
`part['text']` (guarded by `'text' in part`); every other access uses
`.get` with a default.  The variants below model each raw subscript as a
fallible lookup in an `Except` monad (and model Python's recursion limit
as an error on fuel exhaustion), so that "the code never raises" becomes
the provable statement that these variants always return `.ok` of what
the plain functions compute. -/

/-- A raw dictionary subscript `d[k]`: raises `KeyError` when absent. -/
def dictSubscript {α : Type} (field? : Option α) (err : String) : Except String α :=
  match field? with
  | some a => .ok a
  | none => .error err

/-- Per-part contribution with the `part['text']` subscript explicit. -/
def partContribE : ContentPart → Except String (List String)
  | .str s => .ok [s]
  | .obj part_ct t =>
    if part_ct == some "image_asset_pointer" then .ok ["[Image]"]
    else if t.isSome then
      match dictSubscript t "KeyError: text" with
      | .error e => .error e
      | .ok s => .ok [s]
    else .ok []
  | .other => .ok []

/-- The parts loop of `extract_message_text` in the `Except` monad. -/
def textPartsE : List ContentPart → Except String (List String)
  | [] => .ok []
  | p :: ps =>
    match partContribE p with
    | .error e => .error e
    | .ok c =>
      match textPartsE ps with
      | .error e => .error e
      | .ok rest => .ok (c ++ rest)

/-- `extract_message_text` with the `message['content']` subscript (and
the parts loop) made fallible. -/
def extract_message_textE (message : Option Message) : Except String (Option String) :=
  match message with
  | none => .ok none
  | some m =>
    if m.content.isSome then
      match dictSubscript m.content "KeyError: content" with
      | .error e => .error e
      | .ok content =>
        let content_type := content.content_type.getD ""
        if content_type = "text" ∨ content_type = "multimodal_text" then
          match textPartsE (content.parts.getD []) with
          | .error e => .error e
          | .ok text_parts =>
            .ok (if text_parts.isEmpty then none
                 else some (String.intercalate "\n" text_parts))
        else if content_type = "code" then
          .ok (some ("```\n" ++ content.text.getD "" ++ "\n```"))
        else .ok none
    else .ok none

/-- Per-node emission with fallible text extraction. -/
def emitMsgsE (node : Node) : Except String (List DMsg) :=
  match node.message with
  | none => .ok []
  | some m =>
    match extract_message_textE (some m) with
    | .error e => .error e
    | .ok t? => .ok (emitCore m t?)

/-- The children loop in the `Except` monad. -/
def traverseChildrenE
    (trav : List String → String → Except String (List String × List DMsg)) :
    List String → List String → Except String (List String × List DMsg)
  | visited, [] => .ok (visited, [])
  | visited, c :: cs =>
    match trav visited c with
    | .error e => .error e
    | .ok (v1, m1) =>
      match traverseChildrenE trav v1 cs with
      | .error e => .error e
      | .ok (v2, m2) => .ok (v2, m1 ++ m2)

/-- `traverseF` with fallible extraction and explicit recursion-limit
error. -/
def traverseFE (nodes : List (String × Node)) :
    Nat → List String → String → Except String (List String × List DMsg)
  | 0, _, _ => .error "RecursionError: maximum recursion depth exceeded"
  | fuel+1, visited, node_id =>
    if node_id ∈ visited then .ok (visited, [])
    else
      match lookupNode nodes node_id with
      | none => .ok (node_id :: visited, [])
      | some node =>
        match emitMsgsE node with
        | .error e => .error e
        | .ok base =>
          match traverseChildrenE (fun v c => traverseFE nodes fuel v c)
              (node_id :: visited) (node.children.getD []) with
          | .error e => .error e
          | .ok (v, ms) => .ok (v, base ++ ms)

/-- `build_message_thread` with every potential exception surfaced. -/
def build_message_threadE (mapping : List (String × Node)) :
    Except String (List DMsg) :=
  if mapping.isEmpty then .ok []
  else
    match rootId mapping with
    | none => .ok []
    | some root =>
      if root = "" then .ok []
      else
        match traverseFE mapping (buildFuel mapping) [] root with
        | .error e => .error e
        | .ok (_, msgs) => .ok msgs

/-! ## Predicates characterizing the metadata scans, and concrete inputs -/

/-- Truthiness of the extracted text (`if text:` in the source): present
and nonempty. -/
def textTruthy : Option String → Bool
  | none => false
  | some t => !(t == "")

/-- A node qualifies for the preview scan: it has a message whose author
role is `user` and whose extracted text is truthy. -/
def previewQualifies (node : Node) : Bool :=
  match node.message with
  | none => false
  | some m =>
    (m.author.bind Author.role == some "user") &&
      textTruthy (extract_message_text (some m))

/-- A node is counted by `count_messages`: it has a message whose author
role is `user` or `assistant`. -/
def countQualifies (node : Node) : Bool :=
  match node.message with
  | none => false
  | some m => decide (roleForCount m = "user" ∨ roleForCount m = "assistant")

/-- A user message with text parts `["Hi"]`. -/
def msgUserHi : Message :=
  { author := some ⟨some "user"⟩,
    content := some { content_type := some "text", parts := some [.str "Hi"],
                      text := none },
    create_time := none }

/-- An assistant message with text parts `["Hello"]`. -/
def msgAsstHello : Message :=
  { author := some ⟨some "assistant"⟩,
    content := some { content_type := some "text", parts := some [.str "Hello"],
                      text := none },
    create_time := none }

/-- The three-node mapping of the end-to-end scenario. -/
def exMapC1 : List (String × Node) :=
  [("root", { parent := none, children := some ["a"], message := none }),
   ("a", { parent := some "root", children := some ["b"], message := some msgUserHi }),
   ("b", { parent := some "a", children := some [], message := some msgAsstHello })]

/-- A mapping whose only (parentless) node has the falsy id `""`. -/
def exMapC2bad : List (String × Node) :=
  [("", { parent := none, children := some [], message := some msgUserHi })]

/-- A well-formed two-node chain used to instantiate the root-selection
theorem. -/
def exMapC2 : List (String × Node) :=
  [("root", { parent := none, children := some ["a"], message := none }),
   ("a", { parent := some "root", children := some [], message := some msgUserHi })]

/-- A single-node mapping with one user message, used to instantiate the
role-filter theorem. -/
def exMapC6 : List (String × Node) :=
  [("r", { parent := none, children := some [], message := some msgUserHi })]

/-- A cyclic mapping (root lists itself and `x` as children; `x` lists the
root), used to instantiate the termination theorem. -/
def exMapC8 : List (String × Node) :=
  [("root", { parent := none, children := some ["root", "x"],
              message := some msgUserHi }),
   ("x", { parent := some "root", children := some ["root"],
           message := some msgAsstHello })]

/-- A conversation whose `title` field is present but empty. -/
def exConvC9 : Conversation :=
  { title := some "", create_time := none, update_time := none, mapping := [] }

/-- A `code`-typed content with absent `text` field. -/
def exContentC10 : Content :=
  { content_type := some "code", parts := none, text := none }

/-- A user message whose content is `exContentC10`. -/
def exMsgC10 : Message :=
  { author := some ⟨some "user"⟩, content := some exContentC10, create_time := none }

/-! ## Helper lemmas: visited-set growth -/

theorem traverseChildren_subset {α : Type}
    (trav : List String → String → Option (List String × List α))
    (htrav : ∀ v c v2 ms, trav v c = some (v2, ms) → v ⊆ v2) :
    ∀ cs v v2 ms, traverseChildren trav v cs = some (v2, ms) → v ⊆ v2 := by
  intro cs
  induction cs with
  | nil =>
    intro v v2 ms h
    simp only [traverseChildren, Option.some.injEq, Prod.mk.injEq] at h
    obtain ⟨rfl, rfl⟩ := h
    exact List.Subset.refl v
  | cons c cs ih =>
    intro v v2 ms h
    simp only [traverseChildren] at h
    split at h
    · exact absurd h (by simp)
    · rename_i v1 m1 h1
      split at h
      · exact absurd h (by simp)
      · rename_i v3 m2 h2
        simp only [Option.some.injEq, Prod.mk.injEq] at h
        obtain ⟨rfl, rfl⟩ := h
        exact (htrav v c v1 m1 h1).trans (ih v1 v3 m2 h2)

theorem traverseF_subset (nodes : List (String × Node)) :
    ∀ fuel v i v2 ms, traverseF nodes fuel v i = some (v2, ms) → v ⊆ v2 := by
  intro fuel
  induction fuel with
  | zero => intro v i v2 ms h; simp [traverseF] at h
  | succ n ih =>
    intro v i v2 ms h
    simp only [traverseF] at h
    split at h
    · simp only [Option.some.injEq, Prod.mk.injEq] at h
      obtain ⟨rfl, rfl⟩ := h
      exact List.Subset.refl v
    · rename_i hv
      split at h
      · simp only [Option.some.injEq, Prod.mk.injEq] at h
        obtain ⟨rfl, rfl⟩ := h
        exact List.subset_cons_self i v
      · rename_i node hl
        split at h
        · exact absurd h (by simp)
        · rename_i v1 ms1 hc
          simp only [Option.some.injEq, Prod.mk.injEq] at h
          obtain ⟨rfl, rfl⟩ := h
          exact (List.subset_cons_self i v).trans
            (traverseChildren_subset _ (fun v c v2 ms h => ih v c v2 ms h)
              _ _ _ _ hc)

/-! ## Helper lemmas: fuel sufficiency (termination via the visited set) -/

/-- Number of ids of `U` not yet visited. -/
def remaining (U v : List String) : Nat :=
  (U.filter (fun x => decide (¬ x ∈ v))).length

theorem length_filter_le_of_imp {α : Type} (p q : α → Bool)
    (h : ∀ x, p x = true → q x = true) :
    ∀ l : List α, (l.filter p).length ≤ (l.filter q).length := by
  intro l
  induction l with
  | nil => simp
  | cons a l ih =>
    by_cases hp : p a = true
    · have hq := h a hp
      simp only [List.filter_cons, hp, hq, if_true, List.length_cons]
      omega
    · by_cases hq : q a = true <;>
        simp only [List.filter_cons, hp, hq, if_true, if_false, List.length_cons,
          Bool.false_eq_true] <;> omega

theorem remaining_mono (U : List String) {v w : List String} (hvw : v ⊆ w) :
    remaining U w ≤ remaining U v := by
  refine length_filter_le_of_imp _ _ (fun x hx => ?_) U
  simp only [decide_eq_true_eq] at hx ⊢
  exact fun hxv => hx (hvw hxv)

theorem remaining_lt (U : List String) {v : List String} {i : String}
    (hiU : i ∈ U) (hiv : ¬ i ∈ v) : remaining U (i :: v) < remaining U v := by
  have hpred : ∀ x ∈ U.filter (fun x => decide (¬ x ∈ v)),
      (decide (¬ x ∈ i :: v)) = (!(x == i)) := by
    intro x hx
    simp only [List.mem_filter, decide_eq_true_eq] at hx
    by_cases hxi : x = i
    · subst hxi; simp [hx.2]
    · simp [List.mem_cons, hxi, hx.2]
  have hsplit : U.filter (fun x => decide (¬ x ∈ i :: v)) =
      (U.filter (fun x => decide (¬ x ∈ v))).filter (fun x => !(x == i)) := by
    rw [List.filter_filter]
    apply List.filter_congr
    intro x hx
    by_cases hxi : x = i
    · subst hxi; simp [hiv]
    · by_cases hxv : x ∈ v <;> simp [List.mem_cons, hxi, hxv]
  have hmem : i ∈ U.filter (fun x => decide (¬ x ∈ v)) := by
    simp only [List.mem_filter, decide_eq_true_eq]
    exact ⟨hiU, hiv⟩
  unfold remaining
  rw [hsplit]
  apply List.length_filter_lt_length_iff_exists.mpr
  exact ⟨i, hmem, by simp⟩

theorem remaining_nil (U : List String) : remaining U [] = U.length := by
  unfold remaining
  simp

theorem traverseChildren_isSome (nodes : List (String × Node)) (U : List String)
    (fuel : Nat)
    (hF : ∀ v i, i ∈ U → remaining U v < fuel →
      (traverseF nodes fuel v i).isSome = true) :
    ∀ cs v, (∀ c ∈ cs, c ∈ U) → remaining U v < fuel →
      (traverseChildren (fun v c => traverseF nodes fuel v c) v cs).isSome = true := by
  intro cs
  induction cs with
  | nil => intro v _ _; simp [traverseChildren]
  | cons c cs ih =>
    intro v hcs hrem
    obtain ⟨⟨v1, m1⟩, h1⟩ := Option.isSome_iff_exists.mp
      (hF v c (hcs c (List.mem_cons_self c cs)) hrem)
    have hsub : v ⊆ v1 := traverseF_subset nodes fuel v c v1 m1 h1
    have hrem1 : remaining U v1 < fuel :=
      lt_of_le_of_lt (remaining_mono U hsub) hrem
    obtain ⟨⟨v2, m2⟩, h2⟩ := Option.isSome_iff_exists.mp
      (ih v1 (fun x hx => hcs x (List.mem_cons_of_mem c hx)) hrem1)
    simp only [traverseChildren, h1, h2]
    rfl

theorem traverseF_isSome (nodes : List (String × Node)) (U : List String)
    (hU : ∀ i nd, lookupNode nodes i = some nd → ∀ c ∈ nd.children.getD [], c ∈ U) :
    ∀ fuel v i, i ∈ U → remaining U v < fuel →
      (traverseF nodes fuel v i).isSome = true := by
  intro fuel
  induction fuel with
  | zero => intro v i _ hrem; exact absurd hrem (Nat.not_lt_zero _)
  | succ n ih =>
    intro v i hiU hrem
    simp only [traverseF]
    by_cases hv : i ∈ v
    · simp [hv]
    · simp only [hv, if_false]
      cases hl : lookupNode nodes i with
      | none => rfl
      | some node =>
        have hrem2 : remaining U (i :: v) < n := by
          have := remaining_lt U hiU hv
          omega
        obtain ⟨⟨v1, ms1⟩, hc⟩ := Option.isSome_iff_exists.mp
          (traverseChildren_isSome nodes U n ih (node.children.getD [])
            (i :: v) (hU i node hl) hrem2)
        simp only [hc]
        rfl

theorem rootId_mem_allIds {mapping : List (String × Node)} {root : String}
    (h : rootId mapping = some root) : root ∈ allIds mapping := by
  unfold rootId at h
  obtain ⟨kv, hfind, rfl⟩ := Option.map_eq_some'.mp h
  have hmem := List.mem_of_find?_eq_some hfind
  exact List.mem_append_left _ (List.mem_map_of_mem Prod.fst hmem)

theorem lookupNode_children_allIds {mapping : List (String × Node)} {i : String}
    {nd : Node} (h : lookupNode mapping i = some nd) :
    ∀ c ∈ nd.children.getD [], c ∈ allIds mapping := by
  intro c hc
  unfold lookupNode at h
  obtain ⟨kv, hfind, rfl⟩ := Option.map_eq_some'.mp h
  have hmem := List.mem_of_find?_eq_some hfind
  refine List.mem_append_right _ (List.mem_flatten.mpr ?_)
  exact ⟨kv.2.children.getD [], List.mem_map_of_mem _ hmem, hc⟩

/-- The fuel `build_message_thread` hands to the traversal is always
sufficient: the traversal completes (the visited set makes the recursion
well founded on the finite id universe). -/
theorem traverseF_total (mapping : List (String × Node)) (root : String)
    (h : rootId mapping = some root) :
    (traverseF mapping (buildFuel mapping) [] root).isSome = true := by
  apply traverseF_isSome mapping (allIds mapping)
    (fun i nd hl => lookupNode_children_allIds hl)
  · exact rootId_mem_allIds h
  · rw [remaining_nil]
    exact Nat.lt_succ_self _

/-! ## Helper lemmas: tag erasure -/

theorem traverseChildren_map_eq {α β : Type} (f : α → β)
    (travI : List String → String → Option (List String × List α))
    (trav : List String → String → Option (List String × List β))
    (h : ∀ v c, (travI v c).map (fun p => (p.1, p.2.map f)) = trav v c) :
    ∀ cs v, (traverseChildren travI v cs).map (fun p => (p.1, p.2.map f)) =
      traverseChildren trav v cs := by
  intro cs
  induction cs with
  | nil => intro v; simp [traverseChildren]
  | cons c cs ih =>
    intro v
    simp only [traverseChildren]
    cases h1 : travI v c with
    | none =>
      have hc : trav v c = none := by rw [← h v c, h1]; rfl
      simp [hc]
    | some p =>
      obtain ⟨v1, m1⟩ := p
      have hc : trav v c = some (v1, m1.map f) := by rw [← h v c, h1]; rfl
      cases h2 : traverseChildren travI v1 cs with
      | none =>
        have hrec : traverseChildren trav v1 cs = none := by
          rw [← ih v1, h2]; rfl
        simp [hc, h2, hrec]
      | some q =>
        obtain ⟨v2, m2⟩ := q
        have hrec : traverseChildren trav v1 cs = some (v2, m2.map f) := by
          rw [← ih v1, h2]; rfl
        simp [hc, h2, hrec]

theorem traverseFI_erase (nodes : List (String × Node)) :
    ∀ fuel v i, (traverseFI nodes fuel v i).map (fun p => (p.1, p.2.map Prod.snd)) =
      traverseF nodes fuel v i := by
  intro fuel
  induction fuel with
  | zero => intro v i; simp [traverseFI, traverseF]
  | succ n ih =>
    intro v i
    simp only [traverseFI, traverseF]
    by_cases hv : i ∈ v
    · simp [hv]
    · simp only [hv, if_false]
      cases hl : lookupNode nodes i with
      | none => simp
      | some node =>
        cases h2 : traverseChildren (fun v c => traverseFI nodes n v c)
            (i :: v) (node.children.getD []) with
        | none =>
          have hch : traverseChildren (fun v c => traverseF nodes n v c)
              (i :: v) (node.children.getD []) = none := by
            rw [← traverseChildren_map_eq Prod.snd _ _ (fun v c => ih v c) _ _, h2]
            rfl
          simp [h2, hch]
        | some q =>
          obtain ⟨v2, m2⟩ := q
          have hch : traverseChildren (fun v c => traverseF nodes n v c)
              (i :: v) (node.children.getD []) = some (v2, m2.map Prod.snd) := by
            rw [← traverseChildren_map_eq Prod.snd _ _ (fun v c => ih v c) _ _, h2]
            rfl
          simp [h2, hch, emitMsgsI, Function.comp]

theorem build_message_threadI_erase (mapping : List (String × Node)) :
    (build_message_threadI mapping).map Prod.snd = build_message_thread mapping := by
  unfold build_message_threadI build_message_thread
  by_cases hm : mapping.isEmpty
  · simp [hm]
  · simp only [hm, if_false]
    cases hr : rootId mapping with
    | none => simp
    | some root =>
      by_cases hroot : root = ""
      · simp [hroot]
      · simp only [hroot, if_false]
        cases h2 : traverseFI mapping (buildFuel mapping) [] root with
        | none =>
          have hch : traverseF mapping (buildFuel mapping) [] root = none := by
            rw [← traverseFI_erase mapping (buildFuel mapping) [] root, h2]; rfl
          simp [h2, hch]
        | some q =>
          obtain ⟨v2, m2⟩ := q
          have hch : traverseF mapping (buildFuel mapping) [] root =
              some (v2, m2.map Prod.snd) := by
            rw [← traverseFI_erase mapping (buildFuel mapping) [] root, h2]; rfl
          simp [h2, hch]

/-! ## Helper lemmas: each node contributes at most one record -/

theorem traverseChildren_inv {α : Type} (f : α → String)
    (trav : List String → String → Option (List String × List α))
    (htrav : ∀ v c v2 ms, trav v c = some (v2, ms) →
      v ⊆ v2 ∧ (ms.map f).Nodup ∧ ∀ x ∈ ms.map f, x ∈ v2 ∧ ¬ x ∈ v) :
    ∀ cs v v2 ms, traverseChildren trav v cs = some (v2, ms) →
      v ⊆ v2 ∧ (ms.map f).Nodup ∧ ∀ x ∈ ms.map f, x ∈ v2 ∧ ¬ x ∈ v := by
  intro cs
  induction cs with
  | nil =>
    intro v v2 ms h
    simp only [traverseChildren, Option.some.injEq, Prod.mk.injEq] at h
    obtain ⟨rfl, rfl⟩ := h
    exact ⟨List.Subset.refl v, List.nodup_nil, by simp⟩
  | cons c cs ih =>
    intro v v2 ms h
    simp only [traverseChildren] at h
    split at h
    · exact absurd h (by simp)
    · rename_i v1 m1 h1
      split at h
      · exact absurd h (by simp)
      · rename_i v3 m2 h2
        simp only [Option.some.injEq, Prod.mk.injEq] at h
        obtain ⟨rfl, rfl⟩ := h
        obtain ⟨hs1, hn1, hm1⟩ := htrav v c v1 m1 h1
        obtain ⟨hs2, hn2, hm2⟩ := ih v1 v3 m2 h2
        refine ⟨hs1.trans hs2, ?_, ?_⟩
        · rw [List.map_append, List.nodup_append]
          refine ⟨hn1, hn2, ?_⟩
          intro x hx1 hx2
          exact (hm2 x hx2).2 (hm1 x hx1).1
        · intro x hx
          rw [List.map_append, List.mem_append] at hx
          rcases hx with hx | hx
          · exact ⟨hs2 (hm1 x hx).1, (hm1 x hx).2⟩
          · exact ⟨(hm2 x hx).1, fun hxv => (hm2 x hx).2 (hs1 hxv)⟩

theorem emitMsgs_length (node : Node) : (emitMsgs node).length ≤ 1 := by
  unfold emitMsgs emitCore
  split
  · simp
  · split
    · simp
    · split <;> simp

theorem traverseFI_inv (nodes : List (String × Node)) :
    ∀ fuel v i v2 ms, traverseFI nodes fuel v i = some (v2, ms) →
      v ⊆ v2 ∧ (ms.map Prod.fst).Nodup ∧ ∀ x ∈ ms.map Prod.fst, x ∈ v2 ∧ ¬ x ∈ v := by
  intro fuel
  induction fuel with
  | zero => intro v i v2 ms h; simp [traverseFI] at h
  | succ n ih =>
    intro v i v2 ms h
    simp only [traverseFI] at h
    split at h
    · simp only [Option.some.injEq, Prod.mk.injEq] at h
      obtain ⟨rfl, rfl⟩ := h
      exact ⟨List.Subset.refl v, List.nodup_nil, by simp⟩
    · rename_i hv
      split at h
      · simp only [Option.some.injEq, Prod.mk.injEq] at h
        obtain ⟨rfl, rfl⟩ := h
        exact ⟨List.subset_cons_self i v, List.nodup_nil, by simp⟩
      · rename_i node hl
        split at h
        · exact absurd h (by simp)
        · rename_i v1 ms1 hc
          simp only [Option.some.injEq, Prod.mk.injEq] at h
          obtain ⟨rfl, rfl⟩ := h
          obtain ⟨hs, hn, hm⟩ := traverseChildren_inv Prod.fst _
            (fun v c v2 ms h => ih v c v2 ms h) _ _ _ _ hc
          have hiv1 : i ∈ v1 := hs (List.mem_cons_self i v)
          have hfst : (emitMsgsI i node).map Prod.fst =
              (emitMsgs node).map (fun _ => i) := by
            simp [emitMsgsI, Function.comp]
          refine ⟨(List.subset_cons_self i v).trans hs, ?_, ?_⟩
          · rw [List.map_append, hfst]
            cases hemit : emitMsgs node with
            | nil => simpa using hn
            | cons d tail =>
              have hlen := emitMsgs_length node
              rw [hemit] at hlen
              simp only [List.length_cons] at hlen
              have htail : tail = [] := List.length_eq_zero.mp (by omega)
              subst htail
              simp only [List.map_cons, List.map_nil, List.singleton_append,
                List.nodup_cons]
              refine ⟨fun hmem => ?_, hn⟩
              exact (hm i hmem).2 (List.mem_cons_self i v)
          · intro x hx
            rw [List.map_append, hfst, List.mem_append] at hx
            rcases hx with hx | hx
            · have hxi : x = i := by
                rcases List.mem_map.mp hx with ⟨d, _, rfl⟩
                rfl
              subst hxi
              exact ⟨hiv1, hv⟩
            · refine ⟨(hm x hx).1, fun hxv => (hm x hx).2 ?_⟩
              exact List.mem_cons_of_mem i hxv

/-! ## Helper lemmas: role filter and nonempty text of emitted records -/

theorem emitCore_mem {m : Message} {t? : Option String} {d : DMsg}
    (h : d ∈ emitCore m t?) :
    (d.role = "user" ∨ d.role = "assistant" ∨ d.role = "tool") ∧ d.text ≠ "" := by
  unfold emitCore at h
  split at h
  · simp at h
  · rename_i text
    split at h
    · rename_i hcond
      simp only [List.mem_singleton] at h
      subst h
      exact ⟨hcond.2, hcond.1⟩
    · simp at h

theorem emitMsgs_mem {node : Node} {d : DMsg} (h : d ∈ emitMsgs node) :
    (d.role = "user" ∨ d.role = "assistant" ∨ d.role = "tool") ∧ d.text ≠ "" := by
  unfold emitMsgs at h
  split at h
  · simp at h
  · exact emitCore_mem h

theorem traverseChildren_mem {α : Type} (P : α → Prop)
    (trav : List String → String → Option (List String × List α))
    (htrav : ∀ v c v2 ms, trav v c = some (v2, ms) → ∀ d ∈ ms, P d) :
    ∀ cs v v2 ms, traverseChildren trav v cs = some (v2, ms) → ∀ d ∈ ms, P d := by
  intro cs
  induction cs with
  | nil =>
    intro v v2 ms h
    simp only [traverseChildren, Option.some.injEq, Prod.mk.injEq] at h
    obtain ⟨rfl, rfl⟩ := h
    simp
  | cons c cs ih =>
    intro v v2 ms h
    simp only [traverseChildren] at h
    split at h
    · exact absurd h (by simp)
    · rename_i v1 m1 h1
      split at h
      · exact absurd h (by simp)
      · rename_i v3 m2 h2
        simp only [Option.some.injEq, Prod.mk.injEq] at h
        obtain ⟨rfl, rfl⟩ := h
        intro d hd
        rcases List.mem_append.mp hd with hd | hd
        · exact htrav v c v1 m1 h1 d hd
        · exact ih v1 v3 m2 h2 d hd

theorem traverseF_mem (nodes : List (String × Node)) :
    ∀ fuel v i v2 ms, traverseF nodes fuel v i = some (v2, ms) → ∀ d ∈ ms,
      (d.role = "user" ∨ d.role = "assistant" ∨ d.role = "tool") ∧ d.text ≠ "" := by
  intro fuel
  induction fuel with
  | zero => intro v i v2 ms h; simp [traverseF] at h
  | succ n ih =>
    intro v i v2 ms h
    simp only [traverseF] at h
    split at h
    · simp only [Option.some.injEq, Prod.mk.injEq] at h
      obtain ⟨rfl, rfl⟩ := h
      simp
    · split at h
      · simp only [Option.some.injEq, Prod.mk.injEq] at h
        obtain ⟨rfl, rfl⟩ := h
        simp
      · rename_i node hl
        split at h
        · exact absurd h (by simp)
        · rename_i v1 ms1 hc
          simp only [Option.some.injEq, Prod.mk.injEq] at h
          obtain ⟨rfl, rfl⟩ := h
          intro d hd
          rcases List.mem_append.mp hd with hd | hd
          · exact emitMsgs_mem hd
          · exact traverseChildren_mem _ _
              (fun v c v2 ms h => ih v c v2 ms h) _ _ _ _ hc d hd

/-! ## Helper lemmas: the exception-instrumented code never raises -/

theorem partContribE_eq (p : ContentPart) :
    partContribE p = .ok (partText p).toList := by
  cases p with
  | str s => rfl
  | obj part_ct t =>
    simp only [partContribE, partText]
    by_cases hct : (part_ct == some "image_asset_pointer") = true
    · simp [hct]
    · simp only [hct, if_false, Bool.false_eq_true]
      cases t <;> simp [dictSubscript]
  | other => rfl

theorem textPartsE_eq (ps : List ContentPart) :
    textPartsE ps = .ok (ps.filterMap partText) := by
  induction ps with
  | nil => rfl
  | cons p ps ih =>
    simp only [textPartsE, partContribE_eq, ih, List.filterMap_cons]
    cases partText p <;> simp [Option.toList]

theorem extract_message_textE_eq (message : Option Message) :
    extract_message_textE message = .ok (extract_message_text message) := by
  cases message with
  | none => rfl
  | some m =>
    cases hc : m.content with
    | none => simp [extract_message_textE, extract_message_text, hc]
    | some content =>
      simp only [extract_message_textE, extract_message_text, hc, Option.isSome_some,
        if_true, dictSubscript]
      split
      · simp [textPartsE_eq]
      · split <;> rfl

theorem emitMsgsE_eq (node : Node) : emitMsgsE node = .ok (emitMsgs node) := by
  unfold emitMsgsE emitMsgs
  cases node.message with
  | none => rfl
  | some m => simp [extract_message_textE_eq]

theorem traverseChildrenE_agree
    (travE : List String → String → Except String (List String × List DMsg))
    (trav : List String → String → Option (List String × List DMsg))
    (h : ∀ v c r, trav v c = some r → travE v c = .ok r) :
    ∀ cs v r, traverseChildren trav v cs = some r →
      traverseChildrenE travE v cs = .ok r := by
  intro cs
  induction cs with
  | nil =>
    intro v r hr
    simp only [traverseChildren, Option.some.injEq] at hr
    subst hr
    rfl
  | cons c cs ih =>
    intro v r hr
    simp only [traverseChildren] at hr
    split at hr
    · exact absurd hr (by simp)
    · rename_i v1 m1 h1
      split at hr
      · exact absurd hr (by simp)
      · rename_i v3 m2 h2
        simp only [Option.some.injEq] at hr
        subst hr
        simp only [traverseChildrenE, h v c _ h1, ih v1 _ h2]

theorem traverseFE_agree (nodes : List (String × Node)) :
    ∀ fuel v i r, traverseF nodes fuel v i = some r →
      traverseFE nodes fuel v i = .ok r := by
  intro fuel
  induction fuel with
  | zero => intro v i r h; simp [traverseF] at h
  | succ n ih =>
    intro v i r h
    simp only [traverseF] at h
    simp only [traverseFE]
    split at h
    · rename_i hv
      simp only [Option.some.injEq] at h
      subst h
      simp [hv]
    · rename_i hv
      split at h
      · rename_i hl
        simp only [Option.some.injEq] at h
        subst h
        simp [hv, hl]
      · rename_i node hl
        split at h
        · exact absurd h (by simp)
        · rename_i v1 ms1 hcr
          simp only [Option.some.injEq] at h
          subst h
          have hE := traverseChildrenE_agree _ _ (fun v c r hr => ih v c r hr) _ _ _ hcr
          simp [hv, hl, emitMsgsE_eq node, hE]

theorem build_message_threadE_eq (mapping : List (String × Node)) :
    build_message_threadE mapping = .ok (build_message_thread mapping) := by
  unfold build_message_threadE build_message_thread
  by_cases hm : mapping.isEmpty
  · simp [hm]
  · simp only [hm, if_false, Bool.false_eq_true]
    cases hr : rootId mapping with
    | none => rfl
    | some root =>
      by_cases hroot : root = ""
      · simp [hroot]
      · simp only [hroot, if_false]
        obtain ⟨⟨v2, msgs⟩, htr⟩ := Option.isSome_iff_exists.mp
          (traverseF_total mapping root hr)
        rw [htr, traverseFE_agree mapping _ _ _ _ htr]

/-! ## Helper lemmas: metadata scans -/

theorem previewProcess_length (t : String) : (previewProcess t).length ≤ 150 := by
  show (String.mk _).length ≤ 150
  simp only [String.length, List.length_take]
  exact min_le_left _ _

theorem get_first_user_message_eq_find (mapping : List (String × Node)) :
    get_first_user_message mapping =
      match mapping.find? (fun kv => previewQualifies kv.2) with
      | none => ""
      | some kv => previewProcess ((extract_message_text kv.2.message).getD "") := by
  induction mapping with
  | nil => rfl
  | cons kv rest ih =>
    obtain ⟨k, node⟩ := kv
    by_cases hq : previewQualifies node = true
    · have hfind : List.find? (fun kv => previewQualifies kv.2) ((k, node) :: rest)
          = some (k, node) := by
        rw [List.find?_cons]
        simp [hq]
      rw [hfind]
      cases hmsg : node.message with
      | none =>
        simp only [previewQualifies, hmsg] at hq
        exact absurd hq (by simp)
      | some m =>
        simp only [previewQualifies, hmsg, Bool.and_eq_true] at hq
        obtain ⟨hrole, htext⟩ := hq
        cases hex : extract_message_text (some m) with
        | none =>
          rw [hex] at htext
          simp [textTruthy] at htext
        | some t =>
          rw [hex] at htext
          have ht : ¬ t = "" := by
            simpa [textTruthy] using htext
          simp [get_first_user_message, hmsg, hrole, hex, ht]
    · have hfind : List.find? (fun kv => previewQualifies kv.2) ((k, node) :: rest)
          = List.find? (fun kv => previewQualifies kv.2) rest := by
        rw [List.find?_cons]
        simp [hq]
      rw [hfind, ← ih]
      cases hmsg : node.message with
      | none => simp [get_first_user_message, hmsg]
      | some m =>
        by_cases hrole : (m.author.bind Author.role == some "user") = true
        · cases hex : extract_message_text (some m) with
          | none => simp [get_first_user_message, hmsg, hrole, hex]
          | some t =>
            have ht : t = "" := by
              by_contra hne
              apply hq
              simp only [previewQualifies, hmsg, hex, Bool.and_eq_true]
              exact ⟨hrole, by simpa [textTruthy] using hne⟩
            simp [get_first_user_message, hmsg, hrole, hex, ht]
        · simp [get_first_user_message, hmsg, hrole]

theorem count_messages_eq_countP (mapping : List (String × Node)) :
    count_messages mapping = mapping.countP (fun kv => countQualifies kv.2) := by
  suffices h : ∀ (l : List (String × Node)) (acc : Nat),
      l.foldl
        (fun count kv =>
          match kv.2.message with
          | none => count
          | some m =>
            if roleForCount m = "user" ∨ roleForCount m = "assistant" then count + 1
            else count)
        acc = acc + l.countP (fun kv => countQualifies kv.2) by
    simpa [count_messages] using h mapping 0
  intro l
  induction l with
  | nil => intro acc; simp
  | cons kv l ih =>
    intro acc
    rw [List.foldl_cons, ih, List.countP_cons]
    have hstep : (match kv.2.message with
        | none => acc
        | some m =>
          if roleForCount m = "user" ∨ roleForCount m = "assistant" then acc + 1
          else acc) = if countQualifies kv.2 then acc + 1 else acc := by
      cases hmsg : kv.2.message with
      | none => simp [countQualifies, hmsg]
      | some m =>
        by_cases hrole : roleForCount m = "user" ∨ roleForCount m = "assistant"
        · simp [countQualifies, hmsg, hrole]
        · simp [countQualifies, hmsg, hrole]
    rw [hstep]
    by_cases hc : countQualifies kv.2 = true
    · simp [hc]
      omega
    · simp [hc]

/-! ## Claim theorems -/

theorem fence_ne_empty (s : String) : ("```\n" ++ s ++ "\n```") ≠ "" := by
  intro h
  have hlen : ("```\n" ++ s ++ "\n```").length = 0 := by rw [h]; rfl
  have h1 : ("```\n" : String).length = 4 := rfl
  have h2 : ("\n```" : String).length = 4 := rfl
  rw [String.length_append, String.length_append, h1, h2] at hlen
  omega

/-- C1: on the end-to-end mapping (root → a → b, with a user "Hi" and an
assistant "Hello"), `build_message_thread` returns exactly the records
user/"Hi" then assistant/"Hello" in that order, `count_messages` returns
2, and `get_first_user_message` returns "Hi". -/
theorem c1_end_to_end :
    build_message_thread exMapC1 =
      [⟨"user", "Hi", none⟩, ⟨"assistant", "Hello", none⟩] ∧
    count_messages exMapC1 = 2 ∧
    get_first_user_message exMapC1 = "Hi" := by
  decide

/-- C2 (amended): `build_message_thread` starts its depth-first traversal
at the first node in mapping iteration order whose `parent` is absent,
provided that node's id is non-falsy (non-empty); it returns the empty
sequence whenever no parentless node exists or the first parentless
node's id is the empty string (`if not root:` truthiness), and no error is
raised in either case (the function is total). -/
theorem c2_root_selection (mapping : List (String × Node)) :
    ((rootId mapping = none ∨ rootId mapping = some "") →
      build_message_thread mapping = []) ∧
    (∀ root : String, rootId mapping = some root → root ≠ "" →
      build_message_thread mapping =
        (match traverseF mapping (buildFuel mapping) [] root with
         | none => []
         | some (_, msgs) => msgs)) := by
  constructor
  · intro h
    unfold build_message_thread
    by_cases hm : mapping.isEmpty
    · simp [hm]
    · rcases h with h | h
      · simp [hm, h]
      · simp [hm, h]
  · intro root hr hroot
    have hm : mapping.isEmpty = false := by
      cases hmm : mapping with
      | nil => subst hmm; simp [rootId] at hr
      | cons a l => rfl
    unfold build_message_thread
    simp [hm, hr, hroot]

/-- C2 counterexample: on the one-node mapping whose parentless node has
the falsy id `""`, `build_message_thread` returns `[]` although a
parentless node exists (and its user message is never emitted): the
claimed equivalence "empty output iff no parentless node", and the
unconditional start of the traversal at that node, both fail. -/
theorem c2_counterexample :
    ¬ (build_message_thread exMapC2bad = [] ↔
        exMapC2bad.find? (fun kv => kv.2.parent.isNone) = none) := by
  decide

/-- Witness for C2: the amended theorem applied to the empty mapping and
to a two-node chain rooted at `"root"`. -/
theorem c2_witness :
    build_message_thread ([] : List (String × Node)) = [] ∧
    build_message_thread exMapC2 =
      (match traverseF exMapC2 (buildFuel exMapC2) [] "root" with
       | none => []
       | some (_, msgs) => msgs) :=
  ⟨(c2_root_selection []).1 (Or.inl (by decide)),
   (c2_root_selection exMapC2).2 "root" (by decide) (by decide)⟩

/-- C3: tagging each emitted record with its emitting node id yields an
instrumented linearizer whose tag erasure is exactly
`build_message_thread`, and whose emitted node ids are pairwise distinct:
each node contributes at most one record to the output, even when it is
reachable by several paths or lies on a cycle. -/
theorem c3_visited_once (mapping : List (String × Node)) :
    (build_message_threadI mapping).map Prod.snd = build_message_thread mapping ∧
    ((build_message_threadI mapping).map Prod.fst).Nodup := by
  refine ⟨build_message_threadI_erase mapping, ?_⟩
  unfold build_message_threadI
  by_cases hm : mapping.isEmpty
  · simp [hm]
  · simp only [hm, if_false, Bool.false_eq_true]
    cases hr : rootId mapping with
    | none => simp
    | some root =>
      by_cases hroot : root = ""
      · simp [hroot]
      · simp only [hroot, if_false]
        cases ht : traverseFI mapping (buildFuel mapping) [] root with
        | none => simp
        | some p =>
          obtain ⟨v2, ms⟩ := p
          simp only
          exact (traverseFI_inv mapping (buildFuel mapping) [] root v2 ms ht).2.1

/-- C4: `get_first_user_message` returns the processed text (newlines
replaced by spaces, stripped, character-truncated to 150) of the first
node in mapping iteration order whose message author role is `user` and
whose extracted text is truthy (present and nonempty), the empty string
when no node qualifies, and its result never exceeds 150 characters. -/
theorem c4_preview_spec (mapping : List (String × Node)) :
    get_first_user_message mapping =
      (match mapping.find? (fun kv => previewQualifies kv.2) with
       | none => ""
       | some kv => previewProcess ((extract_message_text kv.2.message).getD "")) ∧
    (get_first_user_message mapping).length ≤ 150 := by
  refine ⟨get_first_user_message_eq_find mapping, ?_⟩
  rw [get_first_user_message_eq_find mapping]
  cases mapping.find? (fun kv => previewQualifies kv.2) with
  | none => decide
  | some kv => exact previewProcess_length _

/-- C5: `count_messages` equals the number of nodes of the mapping whose
message author role is `user` or `assistant` — a pure scan, independent
of reachability from any root and of extractable text; as a `Nat` the
result is non-negative by type. -/
theorem c5_count_spec (mapping : List (String × Node)) :
    count_messages mapping = mapping.countP (fun kv => countQualifies kv.2) :=
  count_messages_eq_countP mapping

/-- C6: every record of `build_message_thread`'s output has role `user`,
`assistant` or `tool` and nonempty text; hence a node whose role is
`system` — or any role outside that set — or whose extracted text is
empty never contributes a record. -/
theorem c6_role_filter (mapping : List (String × Node)) (d : DMsg)
    (hd : d ∈ build_message_thread mapping) :
    (d.role = "user" ∨ d.role = "assistant" ∨ d.role = "tool") ∧ d.text ≠ "" := by
  unfold build_message_thread at hd
  split at hd
  · exact absurd hd (by simp)
  · split at hd
    · exact absurd hd (by simp)
    · split at hd
      · exact absurd hd (by simp)
      · split at hd
        · exact absurd hd (by simp)
        · rename_i ht
          exact traverseF_mem mapping _ _ _ _ _ ht d hd

/-- Witness for C6 at the single record emitted by `exMapC6`. -/
theorem c6_witness :
    ((⟨"user", "Hi", none⟩ : DMsg).role = "user" ∨
      (⟨"user", "Hi", none⟩ : DMsg).role = "assistant" ∨
      (⟨"user", "Hi", none⟩ : DMsg).role = "tool") ∧
    (⟨"user", "Hi", none⟩ : DMsg).text ≠ "" :=
  c6_role_filter exMapC6 ⟨"user", "Hi", none⟩ (by decide)

/-- C7: totality — with the raw dictionary subscripts
(`message['content']`, `part['text']`) and the recursion limit made
explicit in an `Except` monad, the text extractor and the linearizer
always return `.ok` of what the plain functions compute: on well-typed
mappings no exception is ever raised, every missing or malformed field
(absent parent, message, author or role, unsupported content type or part
shape, dangling child reference) degrading to no contribution. -/
theorem c7_totality :
    (∀ message : Option Message,
      extract_message_textE message = .ok (extract_message_text message)) ∧
    (∀ mapping : List (String × Node),
      build_message_threadE mapping = .ok (build_message_thread mapping)) :=
  ⟨extract_message_textE_eq, build_message_threadE_eq⟩

/-- C8: for every finite mapping — cyclic or diamond-shaped children
references included — the visited-set-guarded traversal terminates: with
the fuel `build_message_thread` supplies (one more than the number of
visitable ids) the traversal returns a result rather than exhausting its
recursion budget. -/
theorem c8_termination (mapping : List (String × Node)) (root : String)
    (h : rootId mapping = some root) :
    (traverseF mapping (buildFuel mapping) [] root).isSome = true :=
  traverseF_total mapping root h

/-- Witness for C8 on a cyclic two-node mapping (the root lists itself
and `x` as children; `x` lists the root). -/
theorem c8_witness :
    rootId exMapC8 = some "root" ∧
    (traverseF exMapC8 (buildFuel exMapC8) [] "root").isSome = true :=
  ⟨by decide, c8_termination exMapC8 "root" (by decide)⟩

/-- C9 counterexample: a present-but-empty `title` is kept unchanged —
the assembly step uses `""`, not `"Untitled Conversation"`, refuting the
claim that an empty title falls back to the default. -/
theorem c9_counterexample :
    conversation_title exConvC9 = "" ∧
    conversation_title exConvC9 ≠ "Untitled Conversation" := by
  decide

/-- C9 (amended): the assembly step uses the title
`"Untitled Conversation"` exactly when the conversation's `title` field
is absent; any present title — the empty string included — is used
unchanged. -/
theorem c9_title_default (conv : Conversation) :
    conversation_title conv =
      (match conv.title with
       | none => "Untitled Conversation"
       | some t => t) := by
  cases conv with
  | mk t c u m => cases t <;> rfl

/-- C10: a `code`-typed content always extracts to a fenced code block
(backticks, newline, the `text` field or `""` when absent, newline,
backticks) and never the "no text" result, so a user/assistant/tool code
message with absent or empty `text` still emits a record, whereas a
`text`/`multimodal_text` content with zero part contributions extracts to
nothing (and is therefore dropped). -/
theorem c10_code_block (m : Message) (content : Content)
    (hc : m.content = some content) :
    (content.content_type.getD "" = "code" →
      extract_message_text (some m) =
        some ("```\n" ++ content.text.getD "" ++ "\n```") ∧
      extract_message_text (some m) ≠ none) ∧
    ((content.content_type.getD "" = "text" ∨
        content.content_type.getD "" = "multimodal_text") →
      (content.parts.getD []).filterMap partText = [] →
      extract_message_text (some m) = none) ∧
    (content.content_type.getD "" = "code" →
      (roleForTraverse m = "user" ∨ roleForTraverse m = "assistant" ∨
        roleForTraverse m = "tool") →
      emitCore m (extract_message_text (some m)) =
        [⟨roleForTraverse m, "```\n" ++ content.text.getD "" ++ "\n```",
          m.create_time⟩]) := by
  have hcode : content.content_type.getD "" = "code" →
      extract_message_text (some m) =
        some ("```\n" ++ content.text.getD "" ++ "\n```") := by
    intro hct
    simp [extract_message_text, hc, hct]
  refine ⟨fun hct => ⟨hcode hct, by simp [hcode hct]⟩, ?_, ?_⟩
  · intro hct hparts
    simp only [extract_message_text, hc]
    rw [if_pos hct, hparts]
    simp
  · intro hct hrole
    rw [hcode hct]
    simp only [emitCore]
    rw [if_pos ⟨fence_ne_empty _, hrole⟩]

/-- Witness for C10: a user code message with absent `text` extracts to
the empty fenced block and still emits a record. -/
theorem c10_witness :
    extract_message_text (some exMsgC10) =
      some ("```\n" ++ exContentC10.text.getD "" ++ "\n```") ∧
    emitCore exMsgC10 (extract_message_text (some exMsgC10)) =
      [⟨roleForTraverse exMsgC10,
        "```\n" ++ exContentC10.text.getD "" ++ "\n```",
        exMsgC10.create_time⟩] :=
  ⟨((c10_code_block exMsgC10 exContentC10 rfl).1 rfl).1,
   (c10_code_block exMsgC10 exContentC10 rfl).2.2 rfl (Or.inl rfl)⟩

end ChatExport
